import Mathlib

set_option maxHeartbeats 1000000

namespace Singular

/-!
Shallow embedding of the verifiable transition log engine (`src/sm.ts`),
the structured logger (`src/stateMachine/logger.ts`) and the versioned
history tree (`src/tree.ts`).

Cryptographic primitives are modelled symbolically: SHA-256 is a free
constructor over its input (so collision-freeness becomes constructor
injectivity), and RSA signatures are terms recording the signing key and
the signed message, verified by comparison against the matching public
key.  Wall-clock reads (`Date.now()`) are modelled as explicit timestamp
arguments.
-/

/-- Symbolic SHA-256 digests.  `strHash s` models `SHA256(s).toString()`
over a UTF-8 string; `pairHash a b` models `SHA256(bufA ++ bufB)` over the
raw byte buffers of two digests, which is how merkletreejs combines a
sibling pair; `emptyBuf` models the empty buffer that merkletreejs returns
as the root of a leafless tree. -/
inductive Digest where
  | strHash (s : String)
  | pairHash (a b : Digest)
  | emptyBuf
deriving DecidableEq

/-- JavaScript values as fed to `JSON.stringify` by the engine.  `undef`
models `undefined`, which `JSON.stringify` drops from object fields and
renders as `null` inside arrays. -/
inductive JsonVal where
  | undef
  | null
  | bool (b : Bool)
  | num (n : Int)
  | str (s : String)
  | arr (elems : List JsonVal)
  | obj (fields : List (String × JsonVal))

/-- Join rendered items with commas, as `Array.prototype.join` does. -/
def commaJoin : List String → String
  | [] => ""
  | [x] => x
  | x :: rest => x ++ "," ++ commaJoin rest

mutual

/-- `JSON.stringify` with no spacing argument: no insignificant whitespace,
object keys in insertion order.  String contents are modelled without
escape-needing characters (the engine only serializes plain state names,
action labels and structured params). -/
def jsonStringify : JsonVal → String
  | .undef => "null"
  | .null => "null"
  | .bool true => "true"
  | .bool false => "false"
  | .num n => toString n
  | .str s => "\"" ++ s ++ "\""
  | .arr es => "[" ++ commaJoin (jsonArrItems es) ++ "]"
  | .obj fs => "\x7b" ++ commaJoin (jsonObjItems fs) ++ "\x7d"

/-- Rendered array elements (`undefined` becomes `null` inside arrays). -/
def jsonArrItems : List JsonVal → List String
  | [] => []
  | e :: rest => jsonStringify e :: jsonArrItems rest

/-- Rendered object fields; fields whose value is `undefined` are dropped,
as `JSON.stringify` does. -/
def jsonObjItems : List (String × JsonVal) → List String
  | [] => []
  | (_, .undef) :: rest => jsonObjItems rest
  | (k, v) :: rest => ("\"" ++ k ++ "\":" ++ jsonStringify v) :: jsonObjItems rest

end

/-- A state transition descriptor (`interface StateTransition` in
`src/sm.ts`).  States are strings (`State extends string`); the TS field
`from` and the TS field `to` clash with Lean keywords and are rendered `from_`, `to_`. -/
structure StateTransition where
  from_ : String
  to_ : String
  action : String
  params : JsonVal

/-- `BaseState.hashState`: SHA-256 of `JSON.stringify` over the object
literal whose fields appear in insertion order
`timestamp, from, to, action, params`.  The `Date.now()` call inside
`hashState` is the explicit `ts` argument. -/
def hashState (ts : Int) (t : StateTransition) : Digest :=
  Digest.strHash (jsonStringify (JsonVal.obj
    [("timestamp", JsonVal.num ts),
     ("from", JsonVal.str t.from_),
     ("to", JsonVal.str t.to_),
     ("action", JsonVal.str t.action),
     ("params", t.params)]))

/-- Modelled from the spec: the canonical serializer the spec describes for
`state_hash`, with object keys sorted lexicographically
(`action, from, params, timestamp, to`) and no insignificant whitespace.
This follows the spec's words, not the source, and exists only to compare
the implementation against the spec sentence of claim C5. -/
def specCanonSorted (ts : Int) (t : StateTransition) : String :=
  jsonStringify (JsonVal.obj
    [("action", JsonVal.str t.action),
     ("from", JsonVal.str t.from_),
     ("params", t.params),
     ("timestamp", JsonVal.num ts),
     ("to", JsonVal.str t.to_)])

/-- Claim C5 is false as stated: at this concrete transition the bytes
hashed by `hashState` list the keys in insertion order
(`timestamp, from, to, action, params`), not in the sorted order
(`action, from, params, timestamp, to`) the claim asserts, so the two
hashes differ. -/
theorem hashState_sorted_counterexample :
    hashState 0 ⟨"A", "B", "act", JsonVal.null⟩ ≠
      Digest.strHash (specCanonSorted 0 ⟨"A", "B", "act", JsonVal.null⟩) := by
  decide

/-- Claim C5 (amended): for every transition whose `params` is a defined
value, `stateHash` is the hash of the serialization of
`\x7btimestamp, from, to, action, params\x7d` with the keys in that insertion
order and no insignificant whitespace. -/
theorem hashState_insertion_order (ts : Int) (t : StateTransition)
    (hp : t.params ≠ JsonVal.undef) :
    hashState ts t = Digest.strHash
      ("\x7b" ++ commaJoin
        ["\"timestamp\":" ++ toString ts,
         "\"from\":" ++ ("\"" ++ t.from_ ++ "\""),
         "\"to\":" ++ ("\"" ++ t.to_ ++ "\""),
         "\"action\":" ++ ("\"" ++ t.action ++ "\""),
         "\"params\":" ++ jsonStringify t.params] ++ "\x7d") := by
  revert hp
  obtain ⟨f, t0, a, p⟩ := t
  cases p <;> intro hp <;> first
    | exact absurd rfl hp
    | rfl

/-- Witness for `hashState_insertion_order` at a concrete transition. -/
theorem hashState_insertion_order_witness :
    (⟨"A", "B", "act", JsonVal.null⟩ : StateTransition).params ≠ JsonVal.undef ∧
    hashState 0 ⟨"A", "B", "act", JsonVal.null⟩ = Digest.strHash
      ("\x7b" ++ commaJoin
        ["\"timestamp\":" ++ toString (0 : Int),
         "\"from\":" ++ ("\"" ++ "A" ++ "\""),
         "\"to\":" ++ ("\"" ++ "B" ++ "\""),
         "\"action\":" ++ ("\"" ++ "act" ++ "\""),
         "\"params\":" ++ jsonStringify JsonVal.null] ++ "\x7d") :=
  ⟨by simp, hashState_insertion_order 0 ⟨"A", "B", "act", JsonVal.null⟩ (by simp)⟩

/-!
### Merkle accumulator

`BaseState` builds `new MerkleTree(leaves, SHA256)` with default options.
With merkletreejs defaults (`duplicateOdd: false`, `sortPairs: false`,
`isBitcoinTree: false`) each level hashes adjacent pairs and *promotes* a
trailing odd node to the next level unhashed; a single leaf is its own
root, and the root of an empty tree is the empty buffer.
-/

/-- One `createHashes` level with merkletreejs defaults: pair up adjacent
nodes, hash each pair, and push a trailing odd node up unchanged. -/
def mtLevelUp : List Digest → List Digest
  | [] => []
  | [x] => [x]
  | a :: b :: rest => Digest.pairHash a b :: mtLevelUp rest

theorem mtLevelUp_length : ∀ l : List Digest, (mtLevelUp l).length = (l.length + 1) / 2
  | [] => rfl
  | [_] => by simp [mtLevelUp]
  | _ :: _ :: rest => by
    simp only [mtLevelUp, List.length_cons, mtLevelUp_length rest]
    omega

theorem mtLevelUp_lt (l : List Digest) (h : 2 ≤ l.length) :
    (mtLevelUp l).length < l.length := by
  rw [mtLevelUp_length]; omega

/-- The `createHashes` loop with an explicit iteration bound: each level
at least halves the node count, so `l.length` iterations always reach a
single node.  (Structural recursion on the bound keeps the definition
kernel-computable.) -/
def mtRootFuel : Nat → List Digest → Option Digest
  | 0, l => l.head?
  | fuel + 1, l =>
    if l.length ≤ 1 then l.head? else mtRootFuel fuel (mtLevelUp l)

/-- `getRoot`: iterate `mtLevelUp` down to at most one node; `none` models
the empty buffer returned for a leafless tree. -/
def mtRoot (l : List Digest) : Option Digest := mtRootFuel l.length l

theorem mtRootFuel_irrel :
    ∀ (f1 : Nat) (l : List Digest) (f2 : Nat), l.length ≤ f1 → l.length ≤ f2 →
      mtRootFuel f1 l = mtRootFuel f2 l
  | 0, l, f2, h1, _ => by
    have hl : l = [] := List.length_eq_zero.mp (by omega)
    subst hl
    cases f2 <;> simp [mtRootFuel]
  | f1 + 1, l, 0, _, h2 => by
    have hl : l = [] := List.length_eq_zero.mp (by omega)
    subst hl
    simp [mtRootFuel]
  | f1 + 1, l, f2 + 1, h1, h2 => by
    rw [mtRootFuel, mtRootFuel]
    by_cases hs : l.length ≤ 1
    · rw [if_pos hs, if_pos hs]
    · rw [if_neg hs, if_neg hs]
      have hlt := mtLevelUp_lt l (by omega)
      exact mtRootFuel_irrel f1 (mtLevelUp l) f2 (by omega) (by omega)

/-- The loop-step unfolding of `mtRoot`. -/
theorem mtRoot_eq (l : List Digest) :
    mtRoot l = if l.length ≤ 1 then l.head? else mtRoot (mtLevelUp l) := by
  rw [mtRoot, mtRoot]
  cases hl : l.length with
  | zero =>
    have h0 : l = [] := List.length_eq_zero.mp hl
    subst h0
    simp [mtRootFuel]
  | succ n =>
    rw [mtRootFuel]
    by_cases hs : l.length ≤ 1
    · rw [if_pos hs, if_pos (show n + 1 ≤ 1 by omega)]
    · rw [if_neg hs, if_neg (show ¬ n + 1 ≤ 1 by omega)]
      have hlt := mtLevelUp_lt l (by omega)
      exact mtRootFuel_irrel n (mtLevelUp l) (mtLevelUp l).length (by omega) le_rfl

/-- `getHexRoot` as a digest (empty buffer when there are no leaves). -/
def mtRootD (l : List Digest) : Digest := (mtRoot l).getD Digest.emptyBuf

/-- `getProof` positions for leaf index `i`: at each layer the pair
sibling (`true` marks a sibling on the left), nothing when the node is the
promoted odd one, then up a layer at index `i / 2`. -/
def mtProofAux (l : List Digest) (i : Nat) : List (Bool × Digest) :=
  if _ : l.length ≤ 1 then []
  else
    (if i % 2 = 0 then
      match l[i + 1]? with
      | some d => [(false, d)]
      | none => []
    else
      match l[i - 1]? with
      | some d => [(true, d)]
      | none => []) ++ mtProofAux (mtLevelUp l) (i / 2)
termination_by l.length
decreasing_by exact mtLevelUp_lt l (by omega)

/-- `indexOf` over the leaf layer: merkletreejs locates the target leaf by
its first occurrence. -/
def firstIdx : List Digest → Digest → Option Nat
  | [], _ => none
  | a :: rest, x => if a = x then some 0 else (firstIdx rest x).map (· + 1)

/-- `getProof(leaf)`: the proof for the first occurrence of `leaf` among
the leaves, or an empty proof when the leaf is absent. -/
def mtProofFor (l : List Digest) (leaf : Digest) : List (Bool × Digest) :=
  match firstIdx l leaf with
  | some i => mtProofAux l i
  | none => []

/-- Fold a proof path onto a leaf as merkletreejs `verify` does: a left
sibling is concatenated before the running hash, a right one after. -/
def mtFold (leaf : Digest) (path : List (Bool × Digest)) : Digest :=
  path.foldl
    (fun h p => if p.1 then Digest.pairHash p.2 h else Digest.pairHash h p.2)
    leaf

/-- Independent Merkle-proof verification: fold the path and compare with
the claimed root. -/
def mtVerify (leaf : Digest) (path : List (Bool × Digest)) (root : Digest) : Bool :=
  mtFold leaf path = root

/-- Modelled from the spec: one level of the reference Bitcoin-style
scheme, where a trailing odd node is *duplicated* and hashed with itself
instead of being promoted. -/
def btcLevelUp : List Digest → List Digest
  | [] => []
  | [x] => [Digest.pairHash x x]
  | a :: b :: rest => Digest.pairHash a b :: btcLevelUp rest

theorem btcLevelUp_length : ∀ l : List Digest, (btcLevelUp l).length = (l.length + 1) / 2
  | [] => rfl
  | [_] => by simp [btcLevelUp]
  | _ :: _ :: rest => by
    simp only [btcLevelUp, List.length_cons, btcLevelUp_length rest]
    omega

/-- The reference-scheme loop with the same explicit iteration bound. -/
def btcRootFuel : Nat → List Digest → Option Digest
  | 0, l => l.head?
  | fuel + 1, l =>
    if l.length ≤ 1 then l.head? else btcRootFuel fuel (btcLevelUp l)

/-- Modelled from the spec: the reference Merkle root with duplicate-odd
levels (a single leaf is its own root). -/
def btcRoot (l : List Digest) : Option Digest := btcRootFuel l.length l

/-- The reference root as a digest (empty buffer when there are no leaves). -/
def btcRootD (l : List Digest) : Digest := (btcRoot l).getD Digest.emptyBuf

theorem mtLevelUp_get? :
    ∀ (l : List Digest) (i : Nat) (x : Digest), l[i]? = some x →
      (mtLevelUp l)[i / 2]? = some (
        if i % 2 = 0 then
          match l[i + 1]? with
          | some y => Digest.pairHash x y
          | none => x
        else
          match l[i - 1]? with
          | some y => Digest.pairHash y x
          | none => x)
  | [], i, x, h => by simp at h
  | [a], 0, x, h => by
    simp at h
    subst h
    simp [mtLevelUp]
  | [a], i + 1, x, h => by simp at h
  | a :: b :: rest, 0, x, h => by
    simp at h
    subst h
    simp [mtLevelUp]
  | a :: b :: rest, 1, x, h => by
    simp at h
    subst h
    simp [mtLevelUp]
  | a :: b :: rest, i + 2, x, h => by
    have hr : rest[i]? = some x := by simpa using h
    have ih := mtLevelUp_get? rest i x hr
    have hdiv : (i + 2) / 2 = i / 2 + 1 := by omega
    have hmod : (i + 2) % 2 = i % 2 := by omega
    rcases Nat.mod_two_eq_zero_or_one i with hm | hm
    · simp only [mtLevelUp, hdiv, hmod, hm, List.getElem?_cons_succ, if_pos rfl] at ih ⊢
      simpa using ih
    · obtain ⟨j, rfl⟩ : ∃ j, i = j + 1 := ⟨i - 1, by omega⟩
      simp only [mtLevelUp, hdiv, hmod, hm, List.getElem?_cons_succ] at ih ⊢
      simpa using ih

/-- Folding the `getProof` path for a valid leaf index reproduces the
root. -/
theorem mtRoot_fold (l : List Digest) (i : Nat) (x : Digest) (h : l[i]? = some x) :
    mtRoot l = some (mtFold x (mtProofAux l i)) := by
  have hi : i < l.length := by
    by_contra hc
    rw [List.getElem?_eq_none (by omega)] at h
    exact Option.noConfusion h
  by_cases h1 : l.length ≤ 1
  · have hi0 : i = 0 := by omega
    subst hi0
    rw [mtRoot_eq, mtProofAux]
    simp only [h1, if_true, dite_true]
    rw [List.head?_eq_getElem?]
    simp [mtFold, h]
  · have hlev := mtLevelUp_get? l i x h
    rw [mtRoot_eq, mtProofAux]
    simp only [h1, if_false, dite_false]
    rcases Nat.mod_two_eq_zero_or_one i with hm | hm
    · rw [if_pos hm] at hlev ⊢
      match h2 : l[i + 1]? with
      | some y =>
        rw [h2] at hlev
        simpa [mtFold] using mtRoot_fold (mtLevelUp l) (i / 2) _ hlev
      | none =>
        rw [h2] at hlev
        simpa [mtFold] using mtRoot_fold (mtLevelUp l) (i / 2) _ hlev
    · have hm1 : ¬ i % 2 = 0 := by omega
      rw [if_neg hm1] at hlev ⊢
      match h2 : l[i - 1]? with
      | some y =>
        rw [h2] at hlev
        simpa [mtFold] using mtRoot_fold (mtLevelUp l) (i / 2) _ hlev
      | none =>
        have hlt : i - 1 < l.length := by omega
        rw [List.getElem?_eq_getElem hlt] at h2
        exact Option.noConfusion h2
termination_by l.length
decreasing_by all_goals exact mtLevelUp_lt l (by omega)

theorem firstIdx_spec :
    ∀ (l : List Digest) (x : Digest), x ∈ l →
      ∃ i, firstIdx l x = some i ∧ l[i]? = some x
  | [], x, h => absurd h (List.not_mem_nil x)
  | a :: rest, x, h => by
    by_cases ha : a = x
    · exact ⟨0, by simp [firstIdx, ha], by simp [ha]⟩
    · have hx : x ∈ rest := by
        rcases List.mem_cons.mp h with h0 | h0
        · exact absurd h0.symm ha
        · exact h0
      obtain ⟨i, hi, hget⟩ := firstIdx_spec rest x hx
      exact ⟨i + 1, by simp [firstIdx, ha, hi], by simpa using hget⟩

/-- The proof merkletreejs produces for a present leaf verifies against
the root it produces. -/
theorem mtVerify_proofFor (l : List Digest) (leaf : Digest) (h : leaf ∈ l) :
    mtVerify leaf (mtProofFor l leaf) (mtRootD l) = true := by
  obtain ⟨i, hi, hget⟩ := firstIdx_spec l leaf h
  have hroot := mtRoot_fold l i leaf hget
  rw [mtProofFor, hi, mtVerify, mtRootD, hroot]
  simp

/-!
### Signing and proofs

`BaseState.sign` RSA-signs the (hex string of the) state hash with the
machine's private key; `verifySignature(hash, signature, publicKey)`
checks it.  Modelled symbolically: a signature records the signing private
key and the signed digest, and verification compares the offered public
key with the one matching that private key.
-/

/-- The public key matching a private key (symbolic RSA key pair). -/
def pubOf (privateKey : String) : String := "pub/" ++ privateKey

/-- A symbolic RSA signature: the signing private key and the signed
digest. -/
structure Sig where
  key : String
  msg : Digest
deriving DecidableEq

/-- `BaseState.sign`. -/
def sign (privateKey : String) (msg : Digest) : Sig := ⟨privateKey, msg⟩

/-- `BaseState.verifySignature hash signature publicKey`: true iff the
signature was produced over exactly `hash` by the private key matching
`publicKey`. -/
def verifySignature (msg : Digest) (s : Sig) (publicKey : String) : Bool :=
  publicKey == pubOf s.key && s.msg == msg

/-- `interface Proof` (`src/sm.ts`).  `prevHash = none` models the empty
string; hex strings are carried as digests, and `merkleProof` carries the
positions `getProof` computes from the leaf index (`true` = sibling on the
left). -/
structure Proof where
  stateHash : Digest
  prevHash : Option Digest
  merkleRoot : Digest
  merkleProof : List (Bool × Digest)
  signature : Sig
  timestamp : Int
deriving DecidableEq

/-- `BaseState.generateProof`: push the new state hash onto the history,
rebuild the Merkle tree over the whole history, and assemble the proof.
`prevHash` is `stateHistory[length - 2]` after the push, i.e. the last
hash of the old history, or the empty string.  The two `Date.now()` calls
(hash input and proof stamp) are modelled as the single instant `ts`. -/
def generateProof (history : List Digest) (privateKey : String)
    (t : StateTransition) (ts : Int) : List Digest × Proof :=
  let stateHash := hashState ts t
  let leaves := history ++ [stateHash]
  (leaves,
   { stateHash := stateHash
     prevHash := history.getLast?
     merkleRoot := mtRootD leaves
     merkleProof := mtProofFor leaves stateHash
     signature := sign privateKey stateHash
     timestamp := ts })

/-!
### State machine
-/

/-- One structured-logger line (`StateMachineLogger.logTransition`),
modelled structurally rather than as the formatted string. -/
structure LogEntry where
  agentId : String
  sessionId : String
  from_ : String
  to_ : String
  action : String
  proof : Proof
deriving DecidableEq

/-- One row inserted into `execution_logs` by `BaseState.broadcast`. -/
structure SinkRow where
  agentId : String
  sessionId : String
  fromState : String
  toState : String
  action : String
  proof : Proof
deriving DecidableEq

/-- A node of the state-machine graph (`interface StateNode`).  Only the
key set of its transitions Map is ever consulted (`has` and `keys`), so
the Map is modelled as its insertion-ordered key list. -/
structure StateNode where
  state : String
  transitions : List String
deriving DecidableEq

/-- `Map.get` on an insertion-ordered association list. -/
def alistGet {κ α : Type} [DecidableEq κ] (m : List (κ × α)) (k : κ) : Option α :=
  match m with
  | [] => none
  | (k0, v) :: rest => if k0 = k then some v else alistGet rest k

/-- `Map.set`: an existing key is updated in place, a new key appends. -/
def alistSet {κ α : Type} [DecidableEq κ] (m : List (κ × α)) (k : κ) (v : α) :
    List (κ × α) :=
  match m with
  | [] => [(k, v)]
  | (k0, v0) :: rest =>
    if k0 = k then (k0, v) :: rest else (k0, v0) :: alistSet rest k v

/-- The key set of a transitions Map after `Map.set`: existing keys keep
their position, new keys append. -/
def keyInsert (keys : List String) (k : String) : List String :=
  if k ∈ keys then keys else keys ++ [k]

/-- Phase one of `initializeStates`: a node with no transitions for every
state. -/
def emptyNodes (states : List String) : List (String × StateNode) :=
  states.foldl (fun acc s => alistSet acc s ⟨s, []⟩) []

/-- One policy entry of phase two of `initializeStates`: wire the entry
onto the node of its source state, or skip it when that node is absent. -/
def wireStep (acc : List (String × StateNode)) (ft : String × List String) :
    List (String × StateNode) :=
  match alistGet acc ft.1 with
  | none => acc
  | some nd => alistSet acc ft.1 ⟨nd.state, ft.2.foldl keyInsert nd.transitions⟩

/-- Phase two of `initializeStates`: wire each policy entry in order. -/
def wireAll (nodes : List (String × StateNode))
    (transitions : List (String × List String)) : List (String × StateNode) :=
  transitions.foldl wireStep nodes

/-- `StateMachine.initializeStates`. -/
def initializeStates (states : List String)
    (transitions : List (String × List String)) : List (String × StateNode) :=
  wireAll (emptyNodes states) transitions

/-- The full mutable state of a `StateMachine` instance: the `BaseState`
fields, the current state, the state graph and the two sinks (the logger
buffer and the durable `execution_logs` inserts). -/
structure Machine where
  stateHistory : List Digest
  id : String
  sessionId : String
  privateKey : String
  currentState : String
  stateNodes : List (String × StateNode)
  loggerLogs : List LogEntry
  sinkRows : List SinkRow
deriving DecidableEq

/-- The `StateMachine` constructor: it builds the graph and stores the
initial state.  No validation whatsoever is performed on `states`,
`transitions` or `currentState`. -/
def mkStateMachine (id sessionId privateKey : String) (states : List String)
    (transitions : List (String × List String)) (currentState : String) :
    Machine :=
  { stateHistory := []
    id := id
    sessionId := sessionId
    privateKey := privateKey
    currentState := currentState
    stateNodes := initializeStates states transitions
    loggerLogs := []
    sinkRows := [] }

/-- `StateMachine.to`: policy check, proof generation, logger call,
durable broadcast, current-state update, in source order.  The durable
sink's outcome is the `broadcastErr` parameter (`none`: the INSERT
succeeds; `some e`: it throws `e`).  The returned machine is the state at
return, or at the point where the exception escapes. -/
def Machine.to (m : Machine) (state : String) (action : String)
    (params : JsonVal) (ts : Int) (broadcastErr : Option String) :
    Machine × Except String Proof :=
  match alistGet m.stateNodes m.currentState with
  | none =>
    (m, .error ("Invalid transition from " ++ m.currentState ++ " to " ++ state))
  | some node =>
    if state ∈ node.transitions then
      let hp := generateProof m.stateHistory m.privateKey
        ⟨m.currentState, state, action, params⟩ ts
      let m1 := { m with
        stateHistory := hp.1
        loggerLogs := m.loggerLogs ++
          [⟨m.id, m.sessionId, m.currentState, state, action, hp.2⟩] }
      match broadcastErr with
      | some e => (m1, .error e)
      | none =>
        ({ m1 with
            sinkRows := m1.sinkRows ++
              [⟨m.id, m.sessionId, m.currentState, state, action, hp.2⟩]
            currentState := state }, .ok hp.2)
    else
      (m, .error ("Invalid transition from " ++ m.currentState ++ " to " ++ state))

/-- `StateMachine.getAvailableTransitions`. -/
def Machine.getAvailableTransitions (m : Machine) : List String :=
  match alistGet m.stateNodes m.currentState with
  | some node => node.transitions
  | none => []

/-- `StateMachine.getCurrentState`. -/
def Machine.getCurrentState (m : Machine) : String := m.currentState

/-- The graph check `StateMachine.to` performs: the current state has a
node and the target is a key of its transitions Map. -/
def canGo (m : Machine) (state : String) : Prop :=
  match alistGet m.stateNodes m.currentState with
  | none => False
  | some node => state ∈ node.transitions

/-- One requested transition of a run: target, action label, params and
the instant at which it executes. -/
structure Step where
  target : String
  action : String
  params : JsonVal
  ts : Int

/-- Execute a list of requested transitions with a healthy broadcast sink,
collecting the proofs of the accepted ones (a rejected request throws and
changes nothing, so it contributes no proof). -/
def runMachine (m : Machine) : List Step → Machine × List Proof
  | [] => (m, [])
  | s :: rest =>
    match m.to s.target s.action s.params s.ts none with
    | (m1, .ok p) =>
      let r := runMachine m1 rest
      (r.1, p :: r.2)
    | (m1, .error _) => runMachine m1 rest

/-!
### Association-list and graph lemmas
-/

theorem alistGet_alistSet {κ α : Type} [DecidableEq κ] (m : List (κ × α)) (k k' : κ) (v : α) :
    alistGet (alistSet m k v) k' = if k = k' then some v else alistGet m k' := by
  induction m with
  | nil =>
    by_cases h : k = k' <;> simp [alistGet, alistSet, h]
  | cons kv rest ih =>
    obtain ⟨k0, v0⟩ := kv
    by_cases h0 : k0 = k
    · subst h0
      by_cases h1 : k0 = k' <;> simp [alistGet, alistSet, h1]
    · by_cases h1 : k0 = k'
      · subst h1
        have h2 : ¬ k = k0 := fun hh => h0 hh.symm
        simp [alistGet, alistSet, h0, h2]
      · simp [alistGet, alistSet, h0, h1, ih]

theorem mem_keyInsert (l : List String) (k x : String) :
    x ∈ keyInsert l k ↔ x ∈ l ∨ x = k := by
  by_cases h : k ∈ l <;> simp [keyInsert, h]
  exact fun e => e ▸ h

theorem mem_foldl_keyInsert (tos : List String) (l : List String) (x : String) :
    x ∈ tos.foldl keyInsert l ↔ x ∈ l ∨ x ∈ tos := by
  induction tos generalizing l with
  | nil => simp
  | cons a rest ih =>
    rw [List.foldl_cons, ih, mem_keyInsert]
    simp only [List.mem_cons]
    tauto

theorem alistGet_emptyNodes_aux (states : List String)
    (acc : List (String × StateNode)) (s : String) :
    alistGet (states.foldl (fun acc s => alistSet acc s ⟨s, []⟩) acc) s =
      if s ∈ states then some ⟨s, []⟩ else alistGet acc s := by
  induction states generalizing acc with
  | nil => simp
  | cons a rest ih =>
    rw [List.foldl_cons, ih]
    by_cases h : s ∈ rest
    · simp [h]
    · by_cases h2 : a = s
      · subst h2
        simp [h, alistGet_alistSet]
      · have h3 : ¬ s = a := fun hh => h2 hh.symm
        simp [h, h2, h3, alistGet_alistSet]

theorem alistGet_emptyNodes (states : List String) (s : String) :
    alistGet (emptyNodes states) s =
      if s ∈ states then some ⟨s, []⟩ else none := by
  rw [emptyNodes, alistGet_emptyNodes_aux]
  rfl

theorem alistGet_wireStep_ne (nodes : List (String × StateNode))
    (ft : String × List String) (s : String) (h : ft.1 ≠ s) :
    alistGet (wireStep nodes ft) s = alistGet nodes s := by
  rw [wireStep]
  cases h1 : alistGet nodes ft.1 with
  | none => rfl
  | some nd => rw [alistGet_alistSet, if_neg h]

theorem wireAll_get_not_mem (pol : List (String × List String))
    (nodes : List (String × StateNode)) (s : String)
    (h : s ∉ pol.map Prod.fst) :
    alistGet (wireAll nodes pol) s = alistGet nodes s := by
  induction pol generalizing nodes with
  | nil => rfl
  | cons ft rest ih =>
    simp only [List.map_cons, List.mem_cons, not_or] at h
    rw [wireAll, List.foldl_cons, ← wireAll, ih _ h.2,
      alistGet_wireStep_ne _ _ _ fun hh => h.1 hh.symm]

theorem wireAll_none (pol : List (String × List String))
    (nodes : List (String × StateNode)) (s : String)
    (h : alistGet nodes s = none) :
    alistGet (wireAll nodes pol) s = none := by
  induction pol generalizing nodes with
  | nil => exact h
  | cons ft rest ih =>
    rw [wireAll, List.foldl_cons, ← wireAll]
    refine ih _ ?_
    by_cases hfs : ft.1 = s
    · subst hfs
      rw [wireStep, h]
      exact h
    · rw [alistGet_wireStep_ne _ _ _ hfs, h]

theorem wireAll_get (pol : List (String × List String))
    (nodes : List (String × StateNode)) (s : String)
    (hnodup : (pol.map Prod.fst).Nodup) :
    alistGet (wireAll nodes pol) s =
      match alistGet nodes s, alistGet pol s with
      | some nd, some tos => some ⟨nd.state, tos.foldl keyInsert nd.transitions⟩
      | some nd, none => some nd
      | none, _ => none := by
  induction pol generalizing nodes with
  | nil =>
    cases h : alistGet nodes s <;> simp [wireAll, alistGet, h]
  | cons ft rest ih =>
    obtain ⟨f, tos⟩ := ft
    rw [List.map_cons, List.nodup_cons] at hnodup
    rw [wireAll, List.foldl_cons, ← wireAll]
    by_cases hfs : f = s
    · subst hfs
      rw [wireAll_get_not_mem rest _ f hnodup.1]
      cases h1 : alistGet nodes f with
      | none =>
        rw [wireStep]
        simp only [h1]
      | some nd =>
        rw [wireStep]
        simp only [h1]
        simp [alistGet, alistGet_alistSet, h1]
    · rw [ih _ hnodup.2, alistGet_wireStep_ne _ _ _ hfs]
      have h2 : alistGet ((f, tos) :: rest) s = alistGet rest s := by
        rw [alistGet, if_neg hfs]
      rw [h2]

/-!
### Behaviour of one transition
-/

/-- The proof `StateMachine.to` emits for an accepted transition executed
at instant `ts`. -/
def emitProof (m : Machine) (state action : String) (params : JsonVal)
    (ts : Int) : Proof :=
  (generateProof m.stateHistory m.privateKey
    ⟨m.currentState, state, action, params⟩ ts).2

/-- The machine state after an accepted transition whose broadcast
succeeded. -/
def advancedMachine (m : Machine) (state action : String) (params : JsonVal)
    (ts : Int) : Machine :=
  { m with
    stateHistory := m.stateHistory ++
      [hashState ts ⟨m.currentState, state, action, params⟩]
    loggerLogs := m.loggerLogs ++
      [⟨m.id, m.sessionId, m.currentState, state, action,
        emitProof m state action params ts⟩]
    sinkRows := m.sinkRows ++
      [⟨m.id, m.sessionId, m.currentState, state, action,
        emitProof m state action params ts⟩]
    currentState := state }

theorem to_not_allowed (m : Machine) (state action : String) (params : JsonVal)
    (ts : Int) (bcErr : Option String) (h : ¬ canGo m state) :
    m.to state action params ts bcErr =
      (m, .error ("Invalid transition from " ++ m.currentState ++ " to " ++ state)) := by
  rw [Machine.to]
  unfold canGo at h
  cases heq : alistGet m.stateNodes m.currentState with
  | none => simp
  | some node =>
    rw [heq] at h
    simp only at h
    simp [h]

theorem to_allowed_ok (m : Machine) (state action : String) (params : JsonVal)
    (ts : Int) (h : canGo m state) :
    m.to state action params ts none =
      (advancedMachine m state action params ts,
       .ok (emitProof m state action params ts)) := by
  rw [Machine.to]
  unfold canGo at h
  cases heq : alistGet m.stateNodes m.currentState with
  | none =>
    rw [heq] at h
    exact absurd h (by simp)
  | some node =>
    rw [heq] at h
    simp only at h
    simp only [h, if_pos]
    rfl

theorem to_allowed_err (m : Machine) (state action : String) (params : JsonVal)
    (ts : Int) (e : String) (h : canGo m state) :
    m.to state action params ts (some e) =
      ({ m with
          stateHistory := m.stateHistory ++
            [hashState ts ⟨m.currentState, state, action, params⟩]
          loggerLogs := m.loggerLogs ++
            [⟨m.id, m.sessionId, m.currentState, state, action,
              emitProof m state action params ts⟩] },
       .error e) := by
  rw [Machine.to]
  unfold canGo at h
  cases heq : alistGet m.stateNodes m.currentState with
  | none =>
    rw [heq] at h
    exact absurd h (by simp)
  | some node =>
    rw [heq] at h
    simp only at h
    simp only [h, if_pos]
    rfl

/-!
### Runs
-/

/-- The prev-hash chaining property of a proof list, relative to the link
expected by its first element. -/
def Chained : Option Digest → List Proof → Prop
  | _, [] => True
  | prev, p :: ps => p.prevHash = prev ∧ Chained (some p.stateHash) ps

/-- The combined run invariant: the final history is the initial one plus
the emitted hashes in order; the emitted proofs chain from the last
initial hash; and every emitted proof carries the merkletreejs root over
the cumulative leaves at its index, together with a Merkle path that
verifies against it. -/
theorem runMachine_spec (steps : List Step) (m : Machine) :
    (runMachine m steps).1.stateHistory
        = m.stateHistory ++ ((runMachine m steps).2).map Proof.stateHash
      ∧ Chained m.stateHistory.getLast? (runMachine m steps).2
      ∧ ∀ i (hi : i < (runMachine m steps).2.length),
          ((runMachine m steps).2.get ⟨i, hi⟩).merkleRoot
              = mtRootD (m.stateHistory
                  ++ (((runMachine m steps).2).map Proof.stateHash).take (i + 1))
            ∧ mtVerify ((runMachine m steps).2.get ⟨i, hi⟩).stateHash
                ((runMachine m steps).2.get ⟨i, hi⟩).merkleProof
                ((runMachine m steps).2.get ⟨i, hi⟩).merkleRoot = true := by
  induction steps generalizing m with
  | nil => simp [runMachine, Chained]
  | cons s rest ih =>
    by_cases hc : canGo m s.target
    · rw [runMachine, to_allowed_ok m s.target s.action s.params s.ts hc]
      obtain ⟨ih1, ih2, ih3⟩ := ih (advancedMachine m s.target s.action s.params s.ts)
      set hsh := hashState s.ts ⟨m.currentState, s.target, s.action, s.params⟩ with hhsh
      set p := emitProof m s.target s.action s.params s.ts with hp
      set ps := (runMachine (advancedMachine m s.target s.action s.params s.ts) rest).2 with hps
      have hadv : (advancedMachine m s.target s.action s.params s.ts).stateHistory
          = m.stateHistory ++ [hsh] := rfl
      have hphash : p.stateHash = hsh := rfl
      refine ⟨?_, ?_, ?_⟩
      · simp only [List.map_cons, hphash]
        rw [ih1, hadv]
        simp
      · refine ⟨rfl, ?_⟩
        rw [hadv, List.getLast?_concat] at ih2
        exact ih2
      · intro i hi
        match i with
        | 0 =>
          constructor
          · simp only [List.get, List.map_cons, List.take_succ_cons, List.take_zero]
            rfl
          · show mtVerify p.stateHash p.merkleProof p.merkleRoot = true
            have hmem : hsh ∈ m.stateHistory ++ [hsh] := by simp
            have := mtVerify_proofFor (m.stateHistory ++ [hsh]) hsh hmem
            simpa [hp, emitProof, generateProof, hphash] using this
        | j + 1 =>
          have hj : j < ps.length := by
            simpa using Nat.lt_of_succ_lt_succ hi
          obtain ⟨hr, hv⟩ := ih3 j hj
          refine ⟨?_, by simpa using hv⟩
          have : (p :: ps).get ⟨j + 1, hi⟩ = ps.get ⟨j, hj⟩ := rfl
          rw [this, hr, hadv]
          simp only [List.map_cons, List.take_succ_cons, hphash]
          rw [List.append_assoc]
          rfl
    · rw [runMachine, to_not_allowed m s.target s.action s.params s.ts none hc]
      exact ih m

instance (m : Machine) (s : String) : Decidable (canGo m s) :=
  match h : alistGet m.stateNodes m.currentState with
  | none => by
    rw [canGo, h]
    exact inferInstanceAs (Decidable False)
  | some nd => by
    rw [canGo, h]
    exact inferInstanceAs (Decidable (s ∈ nd.transitions))

theorem chained_get :
    ∀ (ps : List Proof) (prev : Option Digest), Chained prev ps →
      ∀ i (hi : i < ps.length),
        (ps.get ⟨i, hi⟩).prevHash
          = if i = 0 then prev
            else some ((ps.get ⟨i - 1, by omega⟩).stateHash)
  | [], _, _, i, hi => absurd hi (by simp)
  | p :: rest, prev, h, 0, hi => by simpa using h.1
  | p :: rest, prev, h, 1, hi => by
    have := chained_get rest (some p.stateHash) h.2 0
      (by simpa using Nat.lt_of_succ_lt_succ hi)
    simpa using this
  | p :: rest, prev, h, j + 2, hi => by
    have hj : j + 1 < rest.length := by simpa using Nat.lt_of_succ_lt_succ hi
    have hrec := chained_get rest (some p.stateHash) h.2 (j + 1) hj
    rw [if_neg (show ¬ (j + 1 = 0) by omega)] at hrec
    rw [if_neg (show ¬ (j + 2 = 0) by omega)]
    exact hrec

/-- The graph check of a machine whose graph was built by the constructor
from `(states, pol)` fails whenever the policy does not list the target as
a successor of the current state. -/
theorem not_canGo_policy (m : Machine) (states : List String)
    (pol : List (String × List String)) (target : String)
    (hsn : m.stateNodes = initializeStates states pol)
    (hnodup : (pol.map Prod.fst).Nodup)
    (htarget : target ∉ (alistGet pol m.currentState).getD []) :
    ¬ canGo m target := by
  unfold canGo
  rw [hsn, initializeStates, wireAll_get pol _ _ hnodup, alistGet_emptyNodes]
  by_cases hcur : m.currentState ∈ states
  · rw [if_pos hcur]
    cases h2 : alistGet pol m.currentState with
    | none => simp
    | some tos =>
      rw [h2] at htarget
      simp only [Option.getD] at htarget
      simp [mem_foldl_keyInsert, htarget]
  · rw [if_neg hcur]
    simp

/-- Claim C2: over every run of accepted transitions on one machine that
starts with an empty history, the proof emitted for transition i > 0 has
prevHash equal to the stateHash of the proof for transition i - 1, and
the first proof has prevHash equal to the empty string (`none`). -/
theorem run_prevHash_chain (m : Machine) (steps : List Step)
    (h0 : m.stateHistory = []) (i : Nat)
    (hi : i < (runMachine m steps).2.length) :
    ((runMachine m steps).2.get ⟨i, hi⟩).prevHash
      = if i = 0 then none
        else some (((runMachine m steps).2.get ⟨i - 1, by omega⟩).stateHash) := by
  have h2 := (runMachine_spec steps m).2.1
  rw [h0] at h2
  simpa using chained_get (runMachine m steps).2 none h2 i hi

/-- Witness for `run_prevHash_chain`: a fresh two-state machine, two
accepted transitions, checked at index 1. -/
theorem run_prevHash_chain_witness :
    ((runMachine (mkStateMachine "a" "s" "k" ["A", "B"] [("A", ["B"]), ("B", ["A"])] "A")
        [⟨"B", "go", JsonVal.null, 0⟩, ⟨"A", "back", JsonVal.null, 1⟩]).2.get
        ⟨1, by decide⟩).prevHash
      = some (((runMachine (mkStateMachine "a" "s" "k" ["A", "B"]
          [("A", ["B"]), ("B", ["A"])] "A")
        [⟨"B", "go", JsonVal.null, 0⟩, ⟨"A", "back", JsonVal.null, 1⟩]).2.get
        ⟨0, by decide⟩).stateHash) := by
  have h := run_prevHash_chain
    (mkStateMachine "a" "s" "k" ["A", "B"] [("A", ["B"]), ("B", ["A"])] "A")
    [⟨"B", "go", JsonVal.null, 0⟩, ⟨"A", "back", JsonVal.null, 1⟩]
    rfl 1 (by decide)
  simpa using h

/-- Claim C3: whenever the requested target is not an allowed successor of
the current state under the policy the machine was built with, `to` fails
with the invalid-transition error naming the pair (from, to) and has no
side effects: the machine state (current state, state-hash log and hence
the Merkle tree, logger sink, durable sink) is returned unchanged. -/
theorem invalid_transition_no_side_effects
    (states : List String) (pol : List (String × List String))
    (hist : List Digest) (agentId sess key cur : String)
    (logs : List LogEntry) (rows : List SinkRow)
    (target action : String) (params : JsonVal) (ts : Int) (bcErr : Option String)
    (hnodup : (pol.map Prod.fst).Nodup)
    (htarget : target ∉ (alistGet pol cur).getD []) :
    (Machine.mk hist agentId sess key cur (initializeStates states pol) logs rows).to
        target action params ts bcErr
      = (Machine.mk hist agentId sess key cur (initializeStates states pol) logs rows,
         .error ("Invalid transition from " ++ cur ++ " to " ++ target)) := by
  apply to_not_allowed
  exact not_canGo_policy _ states pol target rfl hnodup htarget

/-- Witness for `invalid_transition_no_side_effects`: requesting a target
the policy does not allow from the current state. -/
theorem invalid_transition_no_side_effects_witness :
    (Machine.mk [] "a" "s" "k" "A" (initializeStates ["A", "B"] [("A", ["B"])]) [] []).to
        "C" "skip" JsonVal.null 0 none
      = (Machine.mk [] "a" "s" "k" "A" (initializeStates ["A", "B"] [("A", ["B"])]) [] [],
         .error ("Invalid transition from " ++ "A" ++ " to " ++ "C")) :=
  invalid_transition_no_side_effects ["A", "B"] [("A", ["B"])] [] "a" "s" "k" "A"
    [] [] "C" "skip" JsonVal.null 0 none (by decide) (by decide)

/-- Claim C6 is false as stated: constructing a machine whose initial
state "B" is not a member of its state set ["A"] does not fail with a
ConfigError; the constructor performs no validation and returns a normal
machine whose current state is "B" and whose graph has no node for it. -/
theorem ctor_no_validation_counterexample :
    (mkStateMachine "agent" "sess" "key" ["A"] [("A", ["A"])] "B").currentState = "B"
      ∧ alistGet (mkStateMachine "agent" "sess" "key" ["A"] [("A", ["A"])] "B").stateNodes "B"
          = none := by
  decide

/-- Claim C6 (amended): construction always succeeds; no validation of
`initial_state` or of the policy against `states` is performed.  The
machine simply stores the given initial state; when that state is not a
member of `states` it has no graph node, so every subsequent transition
attempt fails with the invalid-transition error and no side effects. -/
theorem mkStateMachine_no_validation (agentId sess key : String)
    (states : List String) (pol : List (String × List String)) (init : String) :
    (mkStateMachine agentId sess key states pol init).currentState = init
      ∧ (init ∉ states →
          ∀ (target action : String) (params : JsonVal) (ts : Int)
            (bcErr : Option String),
            (mkStateMachine agentId sess key states pol init).to
                target action params ts bcErr
              = (mkStateMachine agentId sess key states pol init,
                 .error ("Invalid transition from " ++ init ++ " to " ++ target))) := by
  refine ⟨rfl, fun hinit target action params ts bcErr => ?_⟩
  apply to_not_allowed
  unfold canGo
  show (match alistGet (initializeStates states pol) init with
    | none => False
    | some node => target ∈ node.transitions) → False
  rw [initializeStates,
    wireAll_none pol (emptyNodes states) init
      (by rw [alistGet_emptyNodes, if_neg hinit])]
  exact fun hf => hf

/-- Witness for `mkStateMachine_no_validation`: the machine built with
initial state "B" outside its state set accepts construction and then
rejects a transition. -/
theorem mkStateMachine_no_validation_witness :
    (mkStateMachine "agent" "sess" "key" ["A"] [("A", ["A"])] "B").to
        "A" "go" JsonVal.null 0 none
      = (mkStateMachine "agent" "sess" "key" ["A"] [("A", ["A"])] "B",
         .error ("Invalid transition from " ++ "B" ++ " to " ++ "A")) :=
  (mkStateMachine_no_validation "agent" "sess" "key" ["A"] [("A", ["A"])] "B").2
    (by decide) "A" "go" JsonVal.null 0 none

/-- Claim C9: when the durable broadcast sink throws after the proof has
been generated, the `to` call propagates the error, the new state hash has
already been appended to the log (the leaf sequence is one element
longer, and the leaf hashes a record whose target is `state`), and the
current state is not advanced, so for a non-self-loop the log's recorded
target differs from the machine's current state. -/
theorem broadcast_failure_partial_append (m : Machine) (state action : String)
    (params : JsonVal) (ts : Int) (e : String) (hcan : canGo m state) :
    ((m.to state action params ts (some e)).2 = Except.error e)
      ∧ (m.to state action params ts (some e)).1.stateHistory
          = m.stateHistory ++ [hashState ts ⟨m.currentState, state, action, params⟩]
      ∧ (m.to state action params ts (some e)).1.currentState = m.currentState
      ∧ (m.currentState ≠ state →
          (m.to state action params ts (some e)).1.currentState ≠ state) := by
  rw [to_allowed_err m state action params ts e hcan]
  exact ⟨rfl, rfl, rfl, fun h => h⟩

/-- Witness for `broadcast_failure_partial_append`: a failing INSERT on an
otherwise valid transition. -/
theorem broadcast_failure_partial_append_witness :
    canGo (mkStateMachine "a" "s" "k" ["A", "B"] [("A", ["B"])] "A") "B"
      ∧ ((mkStateMachine "a" "s" "k" ["A", "B"] [("A", ["B"])] "A").to
          "B" "go" JsonVal.null 0 (some "db down")).2 = Except.error "db down" :=
  ⟨by decide,
   (broadcast_failure_partial_append
      (mkStateMachine "a" "s" "k" ["A", "B"] [("A", ["B"])] "A")
      "B" "go" JsonVal.null 0 "db down" (by decide)).1⟩

/-- Claim C4 (amended): over every run of accepted transitions from an
empty history, the i-th proof's merkleRoot equals the root of the
merkletreejs default scheme over the leaves state_hash_0..state_hash_i
(adjacent pairs hashed left-first, a trailing odd node promoted to the
next level *unhashed* rather than duplicated, a single leaf its own
root), and its merkleProof verifies state_hash_i against that root. -/
theorem run_merkle_root_scheme (m : Machine) (steps : List Step)
    (h0 : m.stateHistory = []) (i : Nat)
    (hi : i < (runMachine m steps).2.length) :
    ((runMachine m steps).2.get ⟨i, hi⟩).merkleRoot
        = mtRootD ((((runMachine m steps).2).map Proof.stateHash).take (i + 1))
      ∧ mtVerify ((runMachine m steps).2.get ⟨i, hi⟩).stateHash
          ((runMachine m steps).2.get ⟨i, hi⟩).merkleProof
          ((runMachine m steps).2.get ⟨i, hi⟩).merkleRoot = true := by
  have h3 := (runMachine_spec steps m).2.2 i hi
  rwa [h0, List.nil_append] at h3

/-- Witness for `run_merkle_root_scheme`: a fresh machine, one accepted
transition, checked at index 0. -/
theorem run_merkle_root_scheme_witness :
    ((runMachine (mkStateMachine "a" "s" "k" ["A", "B"] [("A", ["B"])] "A")
        [⟨"B", "go", JsonVal.null, 0⟩]).2.get ⟨0, by decide⟩).merkleRoot
      = mtRootD ((((runMachine (mkStateMachine "a" "s" "k" ["A", "B"]
          [("A", ["B"])] "A")
        [⟨"B", "go", JsonVal.null, 0⟩]).2).map Proof.stateHash).take 1) :=
  (run_merkle_root_scheme
    (mkStateMachine "a" "s" "k" ["A", "B"] [("A", ["B"])] "A")
    [⟨"B", "go", JsonVal.null, 0⟩] rfl 0 (by decide)).1

/-- Claim C4 is false as stated: on this concrete run of three accepted
transitions, the third proof's merkleRoot (merkletreejs promotes the odd
third leaf to the next level unhashed) differs bit for bit from the
spec's Bitcoin-style reference root over the same three leaves (which
hashes the odd leaf with itself). -/
theorem merkle_not_bitcoin_counterexample :
    ((runMachine (mkStateMachine "a" "s" "k" ["A"] [("A", ["A"])] "A")
        [⟨"A", "x", JsonVal.null, 0⟩, ⟨"A", "x", JsonVal.null, 1⟩,
         ⟨"A", "x", JsonVal.null, 2⟩]).2.map Proof.merkleRoot).getLast?
      ≠ some (btcRootD ((runMachine (mkStateMachine "a" "s" "k" ["A"] [("A", ["A"])] "A")
        [⟨"A", "x", JsonVal.null, 0⟩, ⟨"A", "x", JsonVal.null, 1⟩,
         ⟨"A", "x", JsonVal.null, 2⟩]).2.map Proof.stateHash)) := by
  decide

/-!
### verify_chain (claim C1)

The spec's public verification API `verify_chain` has no implementation
anywhere in the repository sources; only the per-proof primitive
`BaseState.verifySignature` exists.  The verifier below is therefore
modelled from the spec: it checks, for each proof in order, (i) the
signature over its stateHash, (ii) prev_hash chaining, (iii) the Merkle
root recomputed over the cumulative leaves up to its index (the spec's
reference duplicate-odd scheme), (iv) its merkle_proof independently
against its merkle_root, and reports the first failure with its index and
the invariant that failed.
-/

/-- Modelled from the spec: the result record of `verify_chain`,
`{ ok, failed_at?, reason? }`. -/
structure VerifyResult where
  ok : Bool
  failed_at : Option Nat
  reason : Option String
deriving DecidableEq

/-- Modelled from the spec: the four checks `verify_chain` runs on one
proof, in order; `none` means the proof passes. -/
def checkProofAt (publicKey : String) (prev : Option Digest)
    (leaves : List Digest) (p : Proof) : Option String :=
  if verifySignature p.stateHash p.signature publicKey then
    if p.prevHash = prev then
      if p.merkleRoot = btcRootD leaves then
        if mtVerify p.stateHash p.merkleProof p.merkleRoot then none
        else some "merkle_proof"
      else some "merkle_root"
    else some "prev_hash"
  else some "signature"

/-- Modelled from the spec: the `verify_chain` loop, carrying the running
index, the previous stateHash and the cumulative leaf list. -/
def verifyChainGo (publicKey : String) :
    Nat → Option Digest → List Digest → List Proof → VerifyResult
  | _, _, _, [] => ⟨true, none, none⟩
  | i, prev, acc, p :: rest =>
    match checkProofAt publicKey prev (acc ++ [p.stateHash]) p with
    | some r => ⟨false, some i, some r⟩
    | none =>
      verifyChainGo publicKey (i + 1) (some p.stateHash) (acc ++ [p.stateHash]) rest

/-- Modelled from the spec: `verify_chain(proofs, public_key)`. -/
def verify_chain (proofs : List Proof) (publicKey : String) : VerifyResult :=
  verifyChainGo publicKey 0 none [] proofs

/-- The stateHash the (i-1)-th proof commits the i-th one to: the empty
string for the first proof. -/
def prevAt (proofs : List Proof) : Nat → Option Digest
  | 0 => none
  | k + 1 => (proofs[k]?).map Proof.stateHash

/-- Invariant (i): the signature of proof `i` verifies. -/
def SigOk (proofs : List Proof) (publicKey : String) (i : Nat)
    (hi : i < proofs.length) : Prop :=
  verifySignature proofs[i].stateHash proofs[i].signature publicKey = true

/-- Invariant (ii): proof `i` chains to its predecessor's stateHash. -/
def ChainOk (proofs : List Proof) (i : Nat) (hi : i < proofs.length) : Prop :=
  proofs[i].prevHash = prevAt proofs i

/-- Invariant (iii): proof `i` carries the reference Merkle root over the
cumulative leaves up to index `i`. -/
def RootOk (proofs : List Proof) (i : Nat) (hi : i < proofs.length) : Prop :=
  proofs[i].merkleRoot = btcRootD ((proofs.map Proof.stateHash).take (i + 1))

/-- Invariant (iv): proof `i`'s merkle_proof verifies independently. -/
def PathOk (proofs : List Proof) (i : Nat) (hi : i < proofs.length) : Prop :=
  mtVerify proofs[i].stateHash proofs[i].merkleProof proofs[i].merkleRoot = true

/-- All four invariants of proof `i`. -/
def ProofChecks (proofs : List Proof) (publicKey : String) (i : Nat)
    (hi : i < proofs.length) : Prop :=
  SigOk proofs publicKey i hi ∧ ChainOk proofs i hi ∧ RootOk proofs i hi
    ∧ PathOk proofs i hi

/-- The reported reason names an invariant that indeed fails at the
reported index. -/
def ReasonFailsAt (proofs : List Proof) (publicKey : String) (i : Nat)
    (hi : i < proofs.length) (r : String) : Prop :=
  (r = "signature" ∧ ¬ SigOk proofs publicKey i hi)
    ∨ (r = "prev_hash" ∧ ¬ ChainOk proofs i hi)
    ∨ (r = "merkle_root" ∧ ¬ RootOk proofs i hi)
    ∨ (r = "merkle_proof" ∧ ¬ PathOk proofs i hi)

theorem take_succ_map_stateHash (proofs : List Proof) (k : Nat)
    (hk : k < proofs.length) :
    (proofs.map Proof.stateHash).take (k + 1)
      = (proofs.map Proof.stateHash).take k ++ [proofs[k].stateHash] := by
  rw [List.take_succ, List.getElem?_map, List.getElem?_eq_getElem hk]
  simp

theorem checkProofAt_none_iff (proofs : List Proof) (publicKey : String)
    (k : Nat) (hk : k < proofs.length) :
    checkProofAt publicKey (prevAt proofs k)
        ((proofs.map Proof.stateHash).take (k + 1)) proofs[k] = none
      ↔ ProofChecks proofs publicKey k hk := by
  rw [checkProofAt, ProofChecks, SigOk, ChainOk, RootOk, PathOk]
  by_cases h1 : verifySignature proofs[k].stateHash proofs[k].signature
      publicKey = true
  · rw [if_pos h1]
    by_cases h2 : proofs[k].prevHash = prevAt proofs k
    · rw [if_pos h2]
      by_cases h3 : proofs[k].merkleRoot
          = btcRootD ((proofs.map Proof.stateHash).take (k + 1))
      · rw [if_pos h3]
        by_cases h4 : mtVerify proofs[k].stateHash proofs[k].merkleProof
            proofs[k].merkleRoot = true
        · rw [if_pos h4]
          exact iff_of_true rfl ⟨h1, h2, h3, h4⟩
        · rw [if_neg h4]
          simp [h4]
      · rw [if_neg h3]
        simp [h3]
    · rw [if_neg h2]
      simp [h2]
  · rw [if_neg h1]
    simp [h1]

theorem checkProofAt_some_spec (proofs : List Proof) (publicKey : String)
    (k : Nat) (hk : k < proofs.length) (r : String)
    (h : checkProofAt publicKey (prevAt proofs k)
        ((proofs.map Proof.stateHash).take (k + 1)) proofs[k] = some r) :
    ReasonFailsAt proofs publicKey k hk r := by
  rw [checkProofAt] at h
  rw [ReasonFailsAt, SigOk, ChainOk, RootOk, PathOk]
  by_cases h1 : verifySignature proofs[k].stateHash proofs[k].signature
      publicKey = true
  · rw [if_pos h1] at h
    by_cases h2 : proofs[k].prevHash = prevAt proofs k
    · rw [if_pos h2] at h
      by_cases h3 : proofs[k].merkleRoot
          = btcRootD ((proofs.map Proof.stateHash).take (k + 1))
      · rw [if_pos h3] at h
        by_cases h4 : mtVerify proofs[k].stateHash proofs[k].merkleProof
            proofs[k].merkleRoot = true
        · rw [if_pos h4] at h
          exact Option.noConfusion h
        · rw [if_neg h4] at h
          exact Or.inr (Or.inr (Or.inr ⟨(Option.some.inj h).symm, h4⟩))
      · rw [if_neg h3] at h
        exact Or.inr (Or.inr (Or.inl ⟨(Option.some.inj h).symm, h3⟩))
    · rw [if_neg h2] at h
      exact Or.inr (Or.inl ⟨(Option.some.inj h).symm, h2⟩)
  · rw [if_neg h1] at h
    exact Or.inl ⟨(Option.some.inj h).symm, h1⟩

theorem verifyChainGo_spec :
    ∀ (rem proofs : List Proof) (publicKey : String) (k : Nat),
      proofs.drop k = rem → k ≤ proofs.length →
      ((verifyChainGo publicKey k (prevAt proofs k)
          ((proofs.map Proof.stateHash).take k) rem).ok = true
        ↔ ∀ i (hi : i < proofs.length), k ≤ i → ProofChecks proofs publicKey i hi)
      ∧ ((verifyChainGo publicKey k (prevAt proofs k)
            ((proofs.map Proof.stateHash).take k) rem).ok = false →
          ∃ i, ∃ hi : i < proofs.length, ∃ r,
            verifyChainGo publicKey k (prevAt proofs k)
                ((proofs.map Proof.stateHash).take k) rem
              = ⟨false, some i, some r⟩
            ∧ k ≤ i
            ∧ (∀ j (hj : j < proofs.length), k ≤ j → j < i →
                ProofChecks proofs publicKey j hj)
            ∧ ReasonFailsAt proofs publicKey i hi r)
  | [], proofs, publicKey, k, hdrop, hk => by
    have hlen : proofs.length ≤ k := by
      have := congrArg List.length hdrop
      simp [List.length_drop] at this
      omega
    constructor
    · exact iff_of_true rfl fun i hi hki => absurd hi (by omega)
    · intro hfalse
      exact absurd hfalse (by simp [verifyChainGo])
  | p :: rest, proofs, publicKey, k, hdrop, hk => by
    have hklt : k < proofs.length := by
      have := congrArg List.length hdrop
      simp [List.length_drop] at this
      omega
    rw [List.drop_eq_getElem_cons hklt] at hdrop
    have hpk : proofs[k] = p := (List.cons.inj hdrop).1
    have hrest : proofs.drop (k + 1) = rest := (List.cons.inj hdrop).2
    subst hpk
    have hacc : (proofs.map Proof.stateHash).take k ++ [proofs[k].stateHash]
        = (proofs.map Proof.stateHash).take (k + 1) :=
      (take_succ_map_stateHash proofs k hklt).symm
    have hprev1 : (some proofs[k].stateHash : Option Digest) = prevAt proofs (k + 1) := by
      rw [prevAt, List.getElem?_eq_getElem hklt]
      rfl
    rw [verifyChainGo, hacc]
    cases hc : checkProofAt publicKey (prevAt proofs k)
        ((proofs.map Proof.stateHash).take (k + 1)) proofs[k] with
    | some r =>
      have hfail := checkProofAt_some_spec proofs publicKey k hklt r hc
      have hnotchecks : ¬ ProofChecks proofs publicKey k hklt := fun hch => by
        have := (checkProofAt_none_iff proofs publicKey k hklt).mpr hch
        rw [this] at hc
        exact Option.noConfusion hc
      constructor
      · refine iff_of_false (by simp) fun hall => hnotchecks (hall k hklt le_rfl)
      · intro _
        exact ⟨k, hklt, r, rfl, le_rfl,
          fun j hj hkj hjk => absurd (by omega : k < k) (by omega),
          hfail⟩
    | none =>
      have hkchecks : ProofChecks proofs publicKey k hklt :=
        (checkProofAt_none_iff proofs publicKey k hklt).mp hc
      have ih := verifyChainGo_spec rest proofs publicKey (k + 1) hrest (by omega)
      rw [← hprev1] at ih
      constructor
      · constructor
        · intro hok i hi hki
          by_cases hik : i = k
          · subst hik
            exact hkchecks
          · exact ih.1.mp hok i hi (by omega)
        · intro hall
          exact ih.1.mpr fun i hi hki => hall i hi (by omega)
      · intro hfalse
        obtain ⟨i, hi, r, heq, hki, hprefix, hreason⟩ := ih.2 hfalse
        refine ⟨i, hi, r, heq, by omega, fun j hj hkj hji => ?_, hreason⟩
        by_cases hjk : j = k
        · subst hjk
          exact hkchecks
        · exact hprefix j hj (by omega) hji

/-- Claim C1 (spec-modelled): `verify_chain(proofs, public_key)` checks,
for every proof in the list, (i) its signature, (ii) prev_hash chaining,
(iii) the Merkle root recomputed over the cumulative leaves up to its
index, (iv) its merkle_proof independently; it returns ok = true iff all
checks pass, and otherwise ok = false together with the first offending
index and the invariant that failed there. -/
theorem verify_chain_contract (proofs : List Proof) (publicKey : String) :
    ((verify_chain proofs publicKey).ok = true
        ↔ ∀ i (hi : i < proofs.length), ProofChecks proofs publicKey i hi)
      ∧ ((verify_chain proofs publicKey).ok = false →
          ∃ i, ∃ hi : i < proofs.length, ∃ r,
            verify_chain proofs publicKey = ⟨false, some i, some r⟩
              ∧ (∀ j (hj : j < proofs.length), j < i →
                  ProofChecks proofs publicKey j hj)
              ∧ ReasonFailsAt proofs publicKey i hi r) := by
  have h := verifyChainGo_spec proofs proofs publicKey 0 rfl (by omega)
  rw [verify_chain]
  constructor
  · constructor
    · intro hok i hi
      exact h.1.mp hok i hi (Nat.zero_le i)
    · intro hall
      exact h.1.mpr fun i hi _ => hall i hi
  · intro hfalse
    obtain ⟨i, hi, r, heq, _, hprefix, hreason⟩ := h.2 hfalse
    exact ⟨i, hi, r, heq, fun j hj hji => hprefix j hj (Nat.zero_le j) hji,
      hreason⟩

/-- Witness for `verify_chain_contract`: the empty chain verifies. -/
theorem verify_chain_contract_witness :
    (verify_chain [] "pub").ok = true :=
  (verify_chain_contract [] "pub").1.mpr fun i hi => absurd hi (by simp)

/-!
### Versioned history tree (`src/tree.ts`)

Version strings always have the canonical shape "L@V": the `TreeNode`
constructor is the only place a version is created, and it renders the
string from the level and the 1-based ordinal.  The model therefore
carries the pair `(L, V)` wherever the source carries the string;
`fromJSON`'s `split("@")` parse recovers exactly this pair, and the JSON
`level` field is ignored just as the source ignores it (the level is
re-derived from the version).  JS object references are addressed through
version pairs; this coincides with reference identity on every tree whose
level-map entries denote existing nodes, which holds for all reachable
trees.
-/

/-- A node version: the pair (L, V), rendered "L@V" in the source. -/
abbrev Version := Nat × Nat

/-- `class TreeNode`: level, version ordinal, payload, children. -/
structure TreeNode (α : Type) where
  level : Nat
  vnum : Nat
  data : α
  children : List (TreeNode α)

/-- The version of a node, as constructed by `new TreeNode(level, version, data)`. -/
def TreeNode.version {α : Type} (n : TreeNode α) : Version := (n.level, n.vnum)

/-- `interface TreeNodeJSON`: the serialized node.  It carries both the
version and a separate level field. -/
structure TreeNodeJSON (α : Type) where
  version : Version
  level : Nat
  data : α
  children : List (TreeNodeJSON α)

/-- `interface TreeStateJSON`. -/
structure TreeState (α : Type) where
  root : TreeNodeJSON α
  maxLevel : Nat
  currentNode : Option Version

mutual

/-- `TreeNode.toJSON`. -/
def TreeNode.toJSON {α : Type} : TreeNode α → TreeNodeJSON α
  | ⟨level, vnum, data, children⟩ => ⟨(level, vnum), level, data, toJSONList children⟩

def toJSONList {α : Type} : List (TreeNode α) → List (TreeNodeJSON α)
  | [] => []
  | c :: cs => TreeNode.toJSON c :: toJSONList cs

end

mutual

/-- `TreeNode.fromJSON`: level and ordinal are parsed out of the version
(the JSON `level` field is ignored, as in the source). -/
def TreeNode.fromJSON {α : Type} : TreeNodeJSON α → TreeNode α
  | ⟨version, _, data, children⟩ => ⟨version.1, version.2, data, fromJSONList children⟩

def fromJSONList {α : Type} : List (TreeNodeJSON α) → List (TreeNode α)
  | [] => []
  | c :: cs => TreeNode.fromJSON c :: fromJSONList cs

end

mutual

theorem fromJSON_toJSON {α : Type} :
    ∀ n : TreeNode α, TreeNode.fromJSON (TreeNode.toJSON n) = n
  | ⟨level, vnum, data, children⟩ => by
    rw [TreeNode.toJSON, TreeNode.fromJSON, fromJSONList_toJSONList children]

theorem fromJSONList_toJSONList {α : Type} :
    ∀ l : List (TreeNode α), fromJSONList (toJSONList l) = l
  | [] => rfl
  | c :: cs => by
    rw [toJSONList, fromJSONList, fromJSON_toJSON c, fromJSONList_toJSONList cs]

end

mutual

/-- `findNodeByVersion`: depth-first preorder search for the first node
with the given version. -/
def findFirst? {α : Type} : TreeNode α → Version → Option (TreeNode α)
  | ⟨level, vnum, data, children⟩, v =>
    if (level, vnum) = v then some ⟨level, vnum, data, children⟩
    else findFirstList? children v

def findFirstList? {α : Type} : List (TreeNode α) → Version → Option (TreeNode α)
  | [], _ => none
  | c :: cs, v =>
    match findFirst? c v with
    | some r => some r
    | none => findFirstList? cs v

end

mutual

theorem findFirst?_version {α : Type} :
    ∀ (n : TreeNode α) (v : Version) (m : TreeNode α),
      findFirst? n v = some m → m.version = v
  | ⟨level, vnum, data, children⟩, v, m, h => by
    rw [findFirst?] at h
    by_cases hv : (level, vnum) = v
    · rw [if_pos hv] at h
      rw [← Option.some.inj h, TreeNode.version]
      exact hv
    · rw [if_neg hv] at h
      exact findFirstList?_version children v m h

theorem findFirstList?_version {α : Type} :
    ∀ (l : List (TreeNode α)) (v : Version) (m : TreeNode α),
      findFirstList? l v = some m → m.version = v
  | [], v, m, h => Option.noConfusion h
  | c :: cs, v, m, h => by
    rw [findFirstList?] at h
    cases hc : findFirst? c v with
    | some r =>
      rw [hc] at h
      rw [← Option.some.inj h]
      exact findFirst?_version c v r hc
    | none =>
      rw [hc] at h
      exact findFirstList?_version cs v m h

end

/-- `mapEnsure`: `if (!levelMap.has(k)) levelMap.set(k, [])`. -/
def mapEnsure (lm : List (Nat × List Version)) (k : Nat) :
    List (Nat × List Version) :=
  match alistGet lm k with
  | some _ => lm
  | none => lm ++ [(k, [])]

/-- `levelMap.get(k).push(v)` (creating the entry when absent, as
`rebuildLevelMap` does). -/
def mapPush (lm : List (Nat × List Version)) (k : Nat) (v : Version) :
    List (Nat × List Version) :=
  match alistGet lm k with
  | some vs => alistSet lm k (vs ++ [v])
  | none => lm ++ [(k, [v])]

mutual

/-- `rebuildLevelMap`: preorder walk pushing every node's version under
its level. -/
def rebuildLM {α : Type} : TreeNode α → List (Nat × List Version) →
    List (Nat × List Version)
  | ⟨level, vnum, _, children⟩, lm =>
    rebuildLMList children (mapPush (mapEnsure lm level) level (level, vnum))

def rebuildLMList {α : Type} : List (TreeNode α) → List (Nat × List Version) →
    List (Nat × List Version)
  | [], lm => lm
  | c :: cs, lm => rebuildLMList cs (rebuildLM c lm)

end

mutual

/-- The greatest `level` of any node of a tree. -/
def maxNodeLevel {α : Type} : TreeNode α → Nat
  | ⟨level, _, _, children⟩ => max level (maxNodeLevelList children)

def maxNodeLevelList {α : Type} : List (TreeNode α) → Nat
  | [] => 0
  | c :: cs => max (maxNodeLevel c) (maxNodeLevelList cs)

end

/-- The full state of a `VersionedTree` instance.  `currentNode = none`
models the JS `undefined` current pointer. -/
structure VersionedTree (α : Type) where
  root : TreeNode α
  levelMap : List (Nat × List Version)
  maxLevel : Nat
  currentNode : Option Version

/-- The `VersionedTree` constructor from initial data: root `0@1`,
level map `0 -> [root]`, max level 0, current pointer at the root. -/
def VersionedTree.new {α : Type} (initialData : α) : VersionedTree α :=
  { root := ⟨0, 1, initialData, []⟩
    levelMap := [(0, [(0, 1)])]
    maxLevel := 0
    currentNode := some (0, 1) }

/-- `save()`: serialize root, max level and the current version.  The
JSON string round trip (`JSON.stringify` then `JSON.parse`) is modelled
at the value level.  (Reading `.version` of an `undefined` current would
throw in JS; every tree the claims quantify over has a defined current.) -/
def VersionedTree.save {α : Type} (t : VersionedTree α) : TreeState α :=
  { root := t.root.toJSON
    maxLevel := t.maxLevel
    currentNode := t.currentNode }

/-- `loadString` on a freshly parsed `TreeStateJSON`: rebuild the root via
`fromJSON`, rebuild the level map by a preorder walk, and restore the
current pointer by searching its version; a missing current throws
"Failed to restore current node". -/
def VersionedTree.load {α : Type} (ts : TreeState α) :
    Except String (VersionedTree α) :=
  let root := TreeNode.fromJSON ts.root
  let lm := rebuildLM root []
  match ts.currentNode with
  | none => .error "Failed to restore current node"
  | some v =>
    match findFirst? root v with
    | none => .error "Failed to restore current node"
    | some cur =>
      .ok { root := root, levelMap := lm, maxLevel := ts.maxLevel,
            currentNode := some cur.version }

mutual

/-- `randomParent.addChild(newNode)`, addressed by the parent's version:
the child is appended at every node carrying that version (on reachable
trees versions are unique, so this is the single JS object mutation). -/
def attachChild {α : Type} : TreeNode α → Version → TreeNode α → TreeNode α
  | ⟨level, vnum, data, children⟩, v, c =>
    if (level, vnum) = v then
      ⟨level, vnum, data, attachChildList children v c ++ [c]⟩
    else ⟨level, vnum, data, attachChildList children v c⟩

def attachChildList {α : Type} :
    List (TreeNode α) → Version → TreeNode α → List (TreeNode α)
  | [], _, _ => []
  | x :: xs, v, c => attachChild x v c :: attachChildList xs v c

end

/-- Attach a batch of children in order under the node with version `v`. -/
def attachAll {α : Type} (root : TreeNode α) (v : Version)
    (cs : List (TreeNode α)) : TreeNode α :=
  cs.foldl (fun r c => attachChild r v c) root

/-- `branchRandomly`.  The three `Math.random()` draws are the explicit
arguments: `pIdx` (parent index below the level population), `n` (the
child count draw, 1..4) and `cIdx` (the current-child draw, 0..n-1).
The caller-supplied producer is `produce`.  The returned pair is the tree
state at return or at the point an exception escapes, together with the
returned version or the error.  Reading `children[cIdx % 0]` of a
childless parent yields JS `undefined`, so the current pointer becomes
undefined (`none`), and the final `return this.currentNode.version` then
throws a TypeError. -/
def branchRandomly {α : Type} (t : VersionedTree α) (pIdx n cIdx : Nat)
    (produce : Nat → List Version → List (α × Version)) :
    VersionedTree α × Except String Version :=
  match alistGet t.levelMap t.maxLevel with
  | none => (t, .error "No nodes found at current level")
  | some nodes =>
    if nodes.isEmpty then (t, .error "No nodes found at current level")
    else
      let parentV := nodes.getD pIdx (0, 0)
      let newLevel := t.maxLevel + 1
      let lm0 := mapEnsure t.levelMap newLevel
      let versions := (List.range n).map fun i => (newLevel, i + 1)
      let childrenData := produce n versions
      let newNodes : List (TreeNode α) :=
        childrenData.map fun e => ⟨newLevel, e.2.2, e.1, []⟩
      let root1 := attachAll t.root parentV newNodes
      let lm1 := (newNodes.map TreeNode.version).foldl
        (fun lm v => mapPush lm newLevel v) lm0
      match findFirst? root1 parentV with
      | none =>
        ({ root := root1, levelMap := lm1, maxLevel := newLevel,
           currentNode := none },
         .error "Cannot read properties of undefined")
      | some parentAfter =>
        match parentAfter.children[cIdx % parentAfter.children.length]? with
        | some c =>
          ({ root := root1, levelMap := lm1, maxLevel := newLevel,
             currentNode := some c.version },
           .ok c.version)
        | none =>
          ({ root := root1, levelMap := lm1, maxLevel := newLevel,
             currentNode := none },
           .error "Cannot read properties of undefined")

/-- Claim C7: for every tree whose current pointer is defined and denotes
a node present in the tree — which holds for every tree reachable by the
public operations — loading the serialized form produced by `save` yields
a tree equal to it in node structure, payloads, version strings, max
level and current version. -/
theorem load_save_roundtrip {α : Type} (t : VersionedTree α) (v : Version)
    (hcur : t.currentNode = some v)
    (hocc : (findFirst? t.root v).isSome = true) :
    ∃ t', VersionedTree.load (VersionedTree.save t) = .ok t'
      ∧ t'.root = t.root ∧ t'.maxLevel = t.maxLevel
      ∧ t'.currentNode = some v := by
  obtain ⟨m, hm⟩ := Option.isSome_iff_exists.mp hocc
  refine ⟨⟨t.root, rebuildLM t.root [], t.maxLevel, some v⟩, ?_, rfl, rfl, rfl⟩
  simp only [VersionedTree.load, VersionedTree.save, fromJSON_toJSON, hcur, hm]
  rw [findFirst?_version t.root v m hm]

/-- Witness for `load_save_roundtrip`: the fresh single-node tree. -/
theorem load_save_roundtrip_witness :
    ∃ t', VersionedTree.load (VersionedTree.save (VersionedTree.new (42 : Nat)))
        = .ok t'
      ∧ t'.root = (VersionedTree.new (42 : Nat)).root
      ∧ t'.maxLevel = (VersionedTree.new (42 : Nat)).maxLevel
      ∧ t'.currentNode = some (0, 1) :=
  load_save_roundtrip (VersionedTree.new 42) (0, 1) rfl (by decide)

mutual

theorem attachChild_of_not_found {α : Type} :
    ∀ (n : TreeNode α) (v : Version) (c : TreeNode α),
      findFirst? n v = none → attachChild n v c = n
  | ⟨level, vnum, data, children⟩, v, c, h => by
    rw [findFirst?] at h
    by_cases hv : (level, vnum) = v
    · rw [if_pos hv] at h
      exact Option.noConfusion h
    · rw [if_neg hv] at h
      rw [attachChild, if_neg hv, attachChildList_of_not_found children v c h]

theorem attachChildList_of_not_found {α : Type} :
    ∀ (l : List (TreeNode α)) (v : Version) (c : TreeNode α),
      findFirstList? l v = none → attachChildList l v c = l
  | [], _, _, _ => rfl
  | x :: xs, v, c, h => by
    rw [findFirstList?] at h
    cases hx : findFirst? x v with
    | some r =>
      rw [hx] at h
      exact Option.noConfusion h
    | none =>
      rw [hx] at h
      rw [attachChildList, attachChild_of_not_found x v c hx,
        attachChildList_of_not_found xs v c h]

end

theorem findFirstList?_append_none {α : Type} (l1 l2 : List (TreeNode α))
    (v : Version) (h1 : findFirstList? l1 v = none)
    (h2 : findFirstList? l2 v = none) :
    findFirstList? (l1 ++ l2) v = none := by
  induction l1 with
  | nil => exact h2
  | cons x xs ih =>
    rw [findFirstList?] at h1
    rw [List.cons_append, findFirstList?]
    cases hx : findFirst? x v with
    | some r =>
      rw [hx] at h1
      exact Option.noConfusion h1
    | none =>
      rw [hx] at h1
      exact ih h1

mutual

theorem findFirst?_attach_step {α : Type} :
    ∀ (n : TreeNode α) (v : Version) (c : TreeNode α) (m : TreeNode α),
      findFirst? n v = some m → findFirstList? m.children v = none →
      findFirst? (attachChild n v c) v
        = some ⟨m.level, m.vnum, m.data, m.children ++ [c]⟩
  | ⟨level, vnum, data, children⟩, v, c, m, hm, hsub => by
    by_cases hv : (level, vnum) = v
    · rw [findFirst?, if_pos hv] at hm
      have hmeq := Option.some.inj hm
      subst hmeq
      rw [attachChild, if_pos hv, findFirst?, if_pos hv,
        attachChildList_of_not_found children v c hsub]
    · rw [findFirst?, if_neg hv] at hm
      rw [attachChild, if_neg hv, findFirst?, if_neg hv]
      exact findFirstList?_attach_step children v c m hm hsub

theorem findFirstList?_attach_step {α : Type} :
    ∀ (l : List (TreeNode α)) (v : Version) (c : TreeNode α) (m : TreeNode α),
      findFirstList? l v = some m → findFirstList? m.children v = none →
      findFirstList? (attachChildList l v c) v
        = some ⟨m.level, m.vnum, m.data, m.children ++ [c]⟩
  | [], _, _, _, hm, _ => Option.noConfusion hm
  | x :: xs, v, c, m, hm, hsub => by
    rw [findFirstList?] at hm
    cases hx : findFirst? x v with
    | some r =>
      rw [hx] at hm
      have hrm : r = m := Option.some.inj hm
      rw [attachChildList, findFirstList?,
        findFirst?_attach_step x v c m (hrm ▸ hx) hsub]
    | none =>
      rw [hx] at hm
      rw [attachChildList, findFirstList?,
        attachChild_of_not_found x v c hx, hx]
      exact findFirstList?_attach_step xs v c m hm hsub

end

/-- Attaching a batch of fresh childless children under the (first node
carrying the) version `v` appends exactly that batch, in order, to its
child list. -/
theorem findFirst?_attachAll {α : Type} (cs : List (TreeNode α))
    (root : TreeNode α) (v : Version) (m : TreeNode α)
    (hm : findFirst? root v = some m)
    (hsub : findFirstList? m.children v = none)
    (hcs : ∀ c ∈ cs, c.version ≠ v ∧ c.children = []) :
    findFirst? (attachAll root v cs) v
      = some ⟨m.level, m.vnum, m.data, m.children ++ cs⟩ := by
  obtain ⟨ml, mv, md, mc⟩ := m
  simp only at hsub
  induction cs generalizing root mc with
  | nil =>
    rw [attachAll, List.foldl_nil, List.append_nil]
    exact hm
  | cons c cs' ih =>
    have hstep := findFirst?_attach_step root v c ⟨ml, mv, md, mc⟩ hm hsub
    have hcv : findFirst? c v = none := by
      obtain ⟨hv, hch⟩ := hcs c (List.mem_cons_self c cs')
      obtain ⟨c1, c2, c3, c4⟩ := c
      simp only [TreeNode.version] at hv
      simp only at hch
      subst hch
      rw [findFirst?, if_neg hv, findFirstList?]
    have hsub1 : findFirstList? (mc ++ [c]) v = none := by
      refine findFirstList?_append_none mc [c] v hsub ?_
      rw [findFirstList?, hcv, findFirstList?]
    have hrec := ih (attachChild root v c)
      (fun x hx => hcs x (List.mem_cons_of_mem c hx))
      (mc ++ [c]) hstep hsub1
    rw [attachAll, List.foldl_cons, ← attachAll, hrec]
    simp

/-- Claim C8: an accepted `branchRandomly` call with a producer returning
k entries (1 ≤ k ≤ n) that echo the offered versions: the parent is drawn
from the level-map population at max_level; n is between 1 and 4; the
versions offered to the producer are (max_level+1)@1 .. (max_level+1)@n;
exactly the k returned entries are attached in order under that parent,
each at level max_level+1 with its matching version; max_level grows by
one; and the returned value is the version of the new current node, the
attached child at index cIdx % k. -/
theorem branchRandomly_spec {α : Type} (t : VersionedTree α)
    (pIdx n cIdx : Nat) (produce : Nat → List Version → List (α × Version))
    (nodes : List Version) (parent : TreeNode α) (entries : List (α × Version))
    (hlm : alistGet t.levelMap t.maxLevel = some nodes)
    (hpidx : pIdx < nodes.length)
    (hn1 : 1 ≤ n) (hn4 : n ≤ 4) (hcidx : cIdx < n)
    (hparent : findFirst? t.root nodes[pIdx] = some parent)
    (hpchildless : parent.children = [])
    (hplevel : (nodes[pIdx]).1 = t.maxLevel)
    (hentries : produce n ((List.range n).map fun i => (t.maxLevel + 1, i + 1))
        = entries)
    (hk1 : 1 ≤ entries.length) (hkn : entries.length ≤ n)
    (hvers : ∀ i (hie : i < entries.length),
        (entries[i]).2 = (t.maxLevel + 1, i + 1)) :
    nodes[pIdx] ∈ nodes
      ∧ (branchRandomly t pIdx n cIdx produce).1.maxLevel = t.maxLevel + 1
      ∧ (∃ pA, findFirst? (branchRandomly t pIdx n cIdx produce).1.root
            nodes[pIdx] = some pA
          ∧ pA.children.length = entries.length
          ∧ ∀ i (hie : i < entries.length),
              pA.children[i]?
                = some ⟨t.maxLevel + 1, i + 1, (entries[i]).1, []⟩)
      ∧ (branchRandomly t pIdx n cIdx produce).2
          = .ok (t.maxLevel + 1, cIdx % entries.length + 1)
      ∧ (branchRandomly t pIdx n cIdx produce).1.currentNode
          = some (t.maxLevel + 1, cIdx % entries.length + 1) := by
  have hne : nodes.isEmpty = false := by
    cases nodes with
    | nil => simp at hpidx
    | cons a l => rfl
  have hgetd : nodes.getD pIdx (0, 0) = nodes[pIdx] := by
    rw [List.getD_eq_getElem?_getD, List.getElem?_eq_getElem hpidx]
    rfl
  set newNodes : List (TreeNode α) :=
    entries.map fun e => (⟨t.maxLevel + 1, e.2.2, e.1, []⟩ : TreeNode α)
    with hnew
  have hcs : ∀ c ∈ newNodes, TreeNode.version c ≠ nodes[pIdx]
      ∧ c.children = [] := by
    intro c hc
    obtain ⟨e, _, rfl⟩ := List.mem_map.mp hc
    refine ⟨fun hveq => ?_, rfl⟩
    have h1 := congrArg Prod.fst hveq
    simp only [TreeNode.version] at h1
    omega
  have hsub : findFirstList? parent.children nodes[pIdx] = none := by
    rw [hpchildless, findFirstList?]
  have hfind := findFirst?_attachAll newNodes t.root nodes[pIdx] parent
    hparent hsub hcs
  rw [hpchildless, List.nil_append] at hfind
  have hmod : cIdx % entries.length < entries.length :=
    Nat.mod_lt _ (by omega)
  have hchild : newNodes[cIdx % entries.length]?
      = some ⟨t.maxLevel + 1, cIdx % entries.length + 1,
          (entries[cIdx % entries.length]).1, []⟩ := by
    rw [hnew, List.getElem?_map, List.getElem?_eq_getElem hmod]
    simp only [Option.map_some']
    rw [show (entries[cIdx % entries.length]).2.2 = cIdx % entries.length + 1 by
      rw [hvers (cIdx % entries.length) hmod]]
  have hbr : branchRandomly t pIdx n cIdx produce
      = ({ root := attachAll t.root nodes[pIdx] newNodes
           levelMap := (newNodes.map TreeNode.version).foldl
             (fun lm v => mapPush lm (t.maxLevel + 1) v)
             (mapEnsure t.levelMap (t.maxLevel + 1))
           maxLevel := t.maxLevel + 1
           currentNode := some (t.maxLevel + 1, cIdx % entries.length + 1) },
         .ok (t.maxLevel + 1, cIdx % entries.length + 1)) := by
    rw [branchRandomly]
    simp only [hlm, hne, Bool.false_eq_true, if_false, hgetd, hentries, hfind]
    have hlen : (⟨parent.level, parent.vnum, parent.data, newNodes⟩ :
        TreeNode α).children.length = entries.length := by
      simp [hnew]
    simp only [hlen, hchild]
    rfl
  refine ⟨List.getElem_mem hpidx, ?_, ?_, ?_, ?_⟩
  · rw [hbr]
  · refine ⟨⟨parent.level, parent.vnum, parent.data, newNodes⟩, ?_, ?_, ?_⟩
    · rw [hbr]
      exact hfind
    · simp [hnew]
    · intro i hie
      show newNodes[i]? = _
      rw [hnew, List.getElem?_map, List.getElem?_eq_getElem hie]
      simp only [Option.map_some']
      rw [show (entries[i]).2.2 = i + 1 by rw [hvers i hie]]
  · rw [hbr]
  · rw [hbr]

/-- Witness for `branchRandomly_spec`: branching the fresh tree with a
producer echoing both offered versions; the draw cIdx = 1 lands on the
second child 1@2. -/
theorem branchRandomly_spec_witness :
    (branchRandomly (VersionedTree.new (0 : Nat)) 0 2 1
        (fun _ vs => vs.map fun v => ((7 : Nat), v))).2
      = .ok (1, 2) := by
  have h := branchRandomly_spec (VersionedTree.new (0 : Nat)) 0 2 1
    (fun _ vs => vs.map fun v => ((7 : Nat), v))
    [(0, 1)] ⟨0, 1, 0, []⟩ [(7, (1, 1)), (7, (1, 2))]
    rfl (by decide) (by decide) (by decide) (by decide)
    rfl rfl rfl rfl (by decide) (by decide) (by decide)
  exact h.2.2.2.1

theorem alistGet_append_none {κ α : Type} [DecidableEq κ]
    (l1 l2 : List (κ × α)) (k : κ) (h : alistGet l1 k = none) :
    alistGet (l1 ++ l2) k = alistGet l2 k := by
  induction l1 with
  | nil => rfl
  | cons kv rest ih =>
    obtain ⟨k0, v0⟩ := kv
    rw [alistGet] at h
    by_cases hk : k0 = k
    · rw [if_pos hk] at h
      exact Option.noConfusion h
    · rw [if_neg hk] at h
      rw [List.cons_append, alistGet, if_neg hk]
      exact ih h

/-- Claim C10: on a tree whose max-level population is childless and
whose level map has no entry above max_level (true of every reachable
tree), a `branchRandomly` call whose producer returns no entries throws,
but only after max_level has been incremented and the current pointer set
to an undefined node; afterwards max_level no longer equals the greatest
level of any node, and every subsequent `branchRandomly` call on the tree
also throws, changing nothing further. -/
theorem branchRandomly_empty_producer {α : Type} (t : VersionedTree α)
    (pIdx n cIdx : Nat) (produce : Nat → List Version → List (α × Version))
    (nodes : List Version)
    (hlm : alistGet t.levelMap t.maxLevel = some nodes)
    (hpidx : pIdx < nodes.length)
    (hchildless : ∀ v ∈ nodes,
        ∃ p, findFirst? t.root v = some p ∧ p.children = [])
    (hmax : maxNodeLevel t.root = t.maxLevel)
    (hfresh : alistGet t.levelMap (t.maxLevel + 1) = none)
    (hempty : produce n ((List.range n).map fun i => (t.maxLevel + 1, i + 1))
        = []) :
    (branchRandomly t pIdx n cIdx produce).2
        = .error "Cannot read properties of undefined"
      ∧ (branchRandomly t pIdx n cIdx produce).1.maxLevel = t.maxLevel + 1
      ∧ (branchRandomly t pIdx n cIdx produce).1.currentNode = none
      ∧ (branchRandomly t pIdx n cIdx produce).1.root = t.root
      ∧ maxNodeLevel (branchRandomly t pIdx n cIdx produce).1.root
          ≠ (branchRandomly t pIdx n cIdx produce).1.maxLevel
      ∧ ∀ pIdx2 n2 cIdx2 produce2,
          branchRandomly (branchRandomly t pIdx n cIdx produce).1
              pIdx2 n2 cIdx2 produce2
            = ((branchRandomly t pIdx n cIdx produce).1,
               .error "No nodes found at current level") := by
  have hne : nodes.isEmpty = false := by
    cases nodes with
    | nil => simp at hpidx
    | cons a l => rfl
  have hgetd : nodes.getD pIdx (0, 0) = nodes[pIdx] := by
    rw [List.getD_eq_getElem?_getD, List.getElem?_eq_getElem hpidx]
    rfl
  obtain ⟨p, hp, hpch⟩ := hchildless nodes[pIdx] (List.getElem_mem hpidx)
  have hbr : branchRandomly t pIdx n cIdx produce
      = ({ root := t.root
           levelMap := t.levelMap ++ [(t.maxLevel + 1, [])]
           maxLevel := t.maxLevel + 1
           currentNode := none },
         .error "Cannot read properties of undefined") := by
    rw [branchRandomly]
    simp only [hlm, hne, Bool.false_eq_true, if_false, hgetd, hempty,
      List.map_nil]
    rw [show attachAll t.root nodes[pIdx] [] = t.root from rfl]
    simp only [hp, hpch]
    rw [List.foldl_nil, mapEnsure, hfresh]
    rfl
  rw [hbr]
  refine ⟨rfl, rfl, rfl, rfl, by simp only; omega, ?_⟩
  intro pIdx2 n2 cIdx2 produce2
  rw [branchRandomly]
  simp only
  rw [alistGet_append_none t.levelMap [(t.maxLevel + 1, [])]
    (t.maxLevel + 1) hfresh]
  simp [alistGet]

/-- Witness for `branchRandomly_empty_producer`: the fresh tree and a
producer that returns nothing. -/
theorem branchRandomly_empty_producer_witness :
    (branchRandomly (VersionedTree.new (0 : Nat)) 0 3 0
        (fun _ _ => ([] : List (Nat × Version)))).2
      = .error "Cannot read properties of undefined" := by
  have h := branchRandomly_empty_producer (VersionedTree.new (0 : Nat)) 0 3 0
    (fun _ _ => ([] : List (Nat × Version))) [(0, 1)]
    rfl (by decide)
    (by
      intro v hv
      simp only [List.mem_singleton] at hv
      subst hv
      exact ⟨⟨0, 1, 0, []⟩, rfl, rfl⟩)
    (by decide) (by decide) rfl
  exact h.1

end Singular
